import Mathlib

/-!
Verification of the pagination stream router of `gcloud-node`
(`lib/common/stream-router.js`), and of the `nextQuery` construction in
`BigQuery.prototype.getDatasets` / `getJobs` and the in-place option mutation
in `Job.prototype.getQueryResults`.

The JavaScript is shallowly embedded:

* A query value passed by a caller is a `JSVal`; associative queries are the
  `QueryObj` record holding exactly the fields the router inspects
  (`maxResults`, `limitVal`, `pageSize`, `autoPaginate`, `autoPaginateVal`,
  `pageToken`) plus an opaque remainder `rest`.
* The page-fetch operation (`originalMethod`) is characterised by the finite
  sequence of page results it would deliver: the i-th fetch call of one stream
  run receives the i-th entry of a `List (Page itemT)` script, mirroring the
  contract that each fetch invokes its callback exactly once with
  `(error, items, nextQuery, rawResponse)`.
* The stream driver `runAsStream_` is a recursive function producing the
  observable event trace (fetch calls issued, callback completions, item
  pushes, error emission, stream end) together with the final mutable state
  `{ resultsToSend, streamEnded }` of the source.
* Consumer behaviour is explicit: whether the consumer ever starts reading
  (the source only fetches from the `stream.once('reading', ...)` handler) and
  whether it calls `stream.end()` right after receiving its n-th item.
-/

/-- An associative query object, with exactly the fields that the router and
the BigQuery list methods inspect.  `rest` stands for all other enumerable
fields, which the code copies around but never reads. -/
structure QueryObj where
  maxResults : Option Int := none
  limitVal : Option Int := none
  pageSize : Option Int := none
  autoPaginate : Option Bool := none
  autoPaginateVal : Option Bool := none
  pageToken : Option String := none
  rest : List (String × String) := []
deriving Repr, DecidableEq

/-- A JavaScript value in an argument position of an extended method:
`undefined`, a function, an associative object, a string shorthand query, or
a number. -/
inductive JSVal where
  | undef
  | fn
  | obj (q : QueryObj)
  | str (s : String)
  | num (n : Int)
deriving Repr, DecidableEq

/-- Modelled from the spec: `util.is(value, 'function')` from
`lib/common/util.js` (that file is not among the sources); per the spec it is
a runtime type test, modelled structurally on `JSVal`. -/
def isFunction : JSVal → Bool
  | JSVal.fn => true
  | _ => false

/-- JavaScript truthiness of a `JSVal` (used by `query || {}`). -/
def jsTruthy : JSVal → Bool
  | JSVal.undef => false
  | JSVal.fn => true
  | JSVal.obj _ => true
  | JSVal.str s => !(s = "")
  | JSVal.num n => !(n = 0)

/-- The canonical invocation descriptor produced by
`streamRouter.parseArguments_`.  The callback is recorded by presence only
(`hasCallback`), since its identity is never inspected. -/
structure ParsedArguments where
  query : JSVal
  hasCallback : Bool
  maxResults : Int
  autoPaginate : Bool
deriving Repr, DecidableEq

/-- `streamRouter.parseArguments_(args)` (stream-router.js lines 76-122).
`args` is the `arguments` pseudo-array; `args[0]` and `args[args.length-1]`
of an empty pseudo-array are `undefined`.  `util.is(x, 'object')` and
`util.is(x, 'number')` are modelled structurally: an object is the
`JSVal.obj` constructor and a numeric field is a present `Option Int`
(modelled from the spec, `lib/common/util.js` being absent from the
sources). -/
def parseArguments_ (args : List JSVal) : ParsedArguments :=
  let firstArgument := args.headD JSVal.undef
  let lastArgument := (args.getLast?).getD JSVal.undef
  let query : Option JSVal :=
    if isFunction firstArgument = true then none else some firstArgument
  let callback : Bool := isFunction firstArgument || isFunction lastArgument
  let maxResults : Int :=
    match query with
    | some (JSVal.obj q) =>
        (match q.maxResults with
         | some n => n
         | none =>
           match q.limitVal with
           | some n => n
           | none =>
             match q.pageSize with
             | some n => n
             | none => -1)
    | _ => -1
  let autoPaginate : Bool :=
    match query with
    | some (JSVal.obj q) =>
        if callback = true ∧
            (maxResults ≠ -1 ∨ q.autoPaginate = some false ∨
              q.autoPaginateVal = some false) then
          false
        else true
    | _ => true
  { query :=
      (match query with
       | some v => if jsTruthy v = true then v else JSVal.obj {}
       | none => JSVal.obj {}),
    hasCallback := callback,
    maxResults := maxResults,
    autoPaginate := autoPaginate }

/-- The object query of an invocation, when there is one: the first argument
if it is an associative object (a function first argument leaves the query
unset, and non-object queries are never inspected for limit fields). -/
def queryObjOf (args : List JSVal) : Option QueryObj :=
  match args.headD JSVal.undef with
  | JSVal.obj q => some q
  | _ => none

/-- One result of a page-fetch call: either the error argument of the
callback, or a page of items together with the `nextQuery` continuation
(`none` models a null / absent `nextQuery`). -/
inductive Page (itemT : Type) where
  | err (e : Nat)
  | ok (items : List itemT) (next : Option QueryObj)
deriving Repr, DecidableEq

/-- Observable events of one stream run: a page-fetch call issued with a
query, the completion callback of the pending fetch firing, an item pushed to
the stream, an `error` event, and `stream.end()` running. -/
inductive Ev (itemT : Type) where
  | fetch (q : JSVal)
  | resolve
  | push (x : itemT)
  | error (e : Nat)
  | ended
deriving Repr, DecidableEq

/-- The mutable state of one `runAsStream_` invocation:
`remaining` is the `resultsToSend` counter (-1 = unbounded), `pushed` counts
items delivered so far (bookkeeping for the consumer model), `ended` is the
`streamEnded` flag maintained by the overridden `stream.end`. -/
structure Drv where
  remaining : Int
  pushed : Nat
  ended : Bool
deriving Repr, DecidableEq

/-- The consumer of a stream: whether it ever begins reading (the source
issues no fetch before the `reading` event), and whether it calls
`stream.end()` immediately upon receiving its n-th item. -/
structure Consumer where
  reads : Bool
  endAfter : Option Nat
deriving Repr, DecidableEq

/-- The `while ((result = results.shift()) && resultsToSend !== 0 &&
!streamEnded)` loop of `onResultSet` (stream-router.js lines 203-207):
shift the next item; if it is truthy, the cap counter is nonzero and the
stream has not ended, push it and decrement the counter.  A consumer that
ends the stream upon receiving its `endAfter`-th item sets the `streamEnded`
flag at that point (its `stream.end()` call is the `Ev.ended` event). -/
def emitLoop (truthy : itemT → Bool) (endAfter : Option Nat) :
    List itemT → Drv → List (Ev itemT) × Drv
  | [], s => ([], s)
  | x :: restItems, s =>
    if truthy x = true ∧ s.remaining ≠ 0 ∧ s.ended = false then
      let p := s.pushed + 1
      if endAfter = some p then
        let s1 : Drv := ⟨s.remaining - 1, p, true⟩
        let r := emitLoop truthy endAfter restItems s1
        (Ev.push x :: Ev.ended :: r.1, r.2)
      else
        let s1 : Drv := ⟨s.remaining - 1, p, false⟩
        let r := emitLoop truthy endAfter restItems s1
        (Ev.push x :: r.1, r.2)
    else ([], s)

/-- One fetch call and its `onResultSet` completion (stream-router.js lines
196-227), driven by the remaining fetch script.  Entering `drive` is issuing
`originalMethod(q, onResultSet)`; the head of `pages` is the result that
fetch delivers (an exhausted script models a fetch whose callback never
fires).  On error: emit `error`, `stream.end()`, stop.  Otherwise run the
emission loop; then, unless the stream was ended by the consumer, end it if
the cap counter reached zero, else recurse on `nextQuery` if present, else
end it (natural exhaustion). -/
def drive (truthy : itemT → Bool) (endAfter : Option Nat) :
    List (Page itemT) → JSVal → Drv → List (Ev itemT) × Drv
  | [], q, s => ([Ev.fetch q], s)
  | Page.err e :: _, q, s =>
      ([Ev.fetch q, Ev.resolve, Ev.error e, Ev.ended], { s with ended := true })
  | Page.ok items next :: restPages, q, s =>
      let r := emitLoop truthy endAfter items s
      if r.2.ended = true then
        (Ev.fetch q :: Ev.resolve :: r.1, r.2)
      else if r.2.remaining = 0 then
        (Ev.fetch q :: Ev.resolve :: (r.1 ++ [Ev.ended]), { r.2 with ended := true })
      else
        match next with
        | some q2 =>
            let r2 := drive truthy endAfter restPages (JSVal.obj q2) r.2
            (Ev.fetch q :: Ev.resolve :: (r.1 ++ r2.1), r2.2)
        | none =>
            (Ev.fetch q :: Ev.resolve :: (r.1 ++ [Ev.ended]), { r.2 with ended := true })

/-- `streamRouter.runAsStream_(parsedArguments, originalMethod)`
(stream-router.js lines 178-230): the returned stream does nothing until the
consumer begins reading (`stream.once('reading', ...)`); the first fetch is
then issued with the parsed query and `resultsToSend` starts at
`parsedArguments.maxResults`. -/
def runAsStream_ (truthy : itemT → Bool) (c : Consumer)
    (parsed : ParsedArguments) (pages : List (Page itemT)) :
    List (Ev itemT) × Drv :=
  let s0 : Drv := ⟨parsed.maxResults, 0, false⟩
  if c.reads = true then drive truthy c.endAfter pages parsed.query s0
  else ([], s0)

/-- The items pushed to the stream, in order. -/
def pushedOf (tr : List (Ev itemT)) : List itemT :=
  tr.filterMap fun e =>
    match e with
    | Ev.push x => some x
    | _ => none

/-- The errors emitted on the stream, in order. -/
def errorsOf (tr : List (Ev itemT)) : List Nat :=
  tr.filterMap fun e =>
    match e with
    | Ev.error n => some n
    | _ => none

def isFetchEv : Ev itemT → Bool
  | Ev.fetch _ => true
  | _ => false

def isEndedEv : Ev itemT → Bool
  | Ev.ended => true
  | _ => false

/-- How many page-fetch calls were issued. -/
def fetchCount (tr : List (Ev itemT)) : Nat :=
  (tr.filter isFetchEv).length

/-- A call of the user callback in aggregate mode: either `callback(err)`
from the stream's `error` listener, or `callback(null, results)` from
`concat-stream`. -/
inductive AggCall (itemT : Type) where
  | err (e : Nat)
  | ok (items : List itemT)
deriving Repr, DecidableEq

/-- The user-callback calls produced by
`runAsStream_(...).on('error', callback).pipe(concat(results =>
callback(null, results)))` (stream-router.js lines 148-152): every stream
`error` event is forwarded to the callback; `concat` delivers the pushed
items exactly once when the stream finishes, which happens only if it ended
without an error (on a source error, `pipe` unpipes the destination, so the
concat callback never fires and buffered items are discarded). -/
def aggCalls (tr : List (Ev itemT)) : List (AggCall itemT) :=
  (errorsOf tr).map AggCall.err ++
    (if errorsOf tr = [] then
       (if tr.any isEndedEv = true then [AggCall.ok (pushedOf tr)] else [])
     else [])

/-- The outcome of `streamRouter.router_`: a stream returned to the caller
(no callback), a single raw pass-through call of the original method
(callback, no auto-pagination), or the aggregate-mode callback calls. -/
inductive RouterOut (itemT : Type) where
  | stream
  | single (query : JSVal) (raw : Option (Page itemT))
  | agg (calls : List (AggCall itemT))
deriving Repr, DecidableEq

/-- `streamRouter.router_(parsedArguments, originalMethod)` (stream-router.js
lines 141-159).  With a callback and auto-pagination, the stream is run to
completion and aggregated (the aggregate consumer never ends the stream
early); with a callback and no auto-pagination, `originalMethod(query,
callback)` is called exactly once and the callback receives the first fetch
result raw; without a callback a stream is returned. -/
def router_ (truthy : itemT → Bool) (parsed : ParsedArguments)
    (pages : List (Page itemT)) : RouterOut itemT :=
  if parsed.hasCallback = true then
    if parsed.autoPaginate = true then
      RouterOut.agg (aggCalls (runAsStream_ truthy ⟨true, none⟩ parsed pages).1)
    else
      RouterOut.single parsed.query pages.head?
  else
    RouterOut.stream

/-- The pages a run actually traverses when nothing stops it early: follow
the script while each page succeeds and carries a continuation, and include
the terminating page (error, or a page without continuation). -/
def chainPages : List (Page itemT) → List (Page itemT)
  | [] => []
  | Page.err e :: _ => [Page.err e]
  | Page.ok items none :: _ => [Page.ok items none]
  | Page.ok items (some q) :: restPages => Page.ok items (some q) :: chainPages restPages

/-- All items available along the chain of continuations (up to the first
error or the first page without a continuation token). -/
def chainItems : List (Page itemT) → List itemT
  | [] => []
  | Page.err _ :: _ => []
  | Page.ok items none :: _ => items
  | Page.ok items (some _) :: restPages => items ++ chainItems restPages

/-- The first fetch error reached along the chain of continuations, if any. -/
def chainErr : List (Page itemT) → Option Nat
  | [] => none
  | Page.err e :: _ => some e
  | Page.ok _ none :: _ => none
  | Page.ok _ (some _) :: restPages => chainErr restPages

/-- Whether the script settles the run: following the continuations, a
terminating page (error or token-less page) is reached before the script is
exhausted.  An unsettled script models a final fetch whose callback never
fires. -/
def ClosedB : List (Page itemT) → Bool
  | [] => false
  | Page.err _ :: _ => true
  | Page.ok _ none :: _ => true
  | Page.ok _ (some _) :: restPages => ClosedB restPages

/-- How many fetches are needed to obtain the first `m` items along the
chain: the page that supplies the m-th item is the last one fetched,
whether or not it carries a continuation token. -/
def pagesFor (m : Nat) : List (Page itemT) → Nat
  | [] => 0
  | Page.err _ :: _ => 1
  | Page.ok items next :: restPages =>
      if m ≤ items.length then 1
      else
        match next with
        | none => 1
        | some _ => 1 + pagesFor (m - items.length) restPages

/-- The event trace of an unbounded, uninterrupted run over a script: fetch,
completion, all pushes of the page, then either the terminal event or the
next fetch. -/
def idealTrace : List (Page itemT) → JSVal → List (Ev itemT)
  | [], q => [Ev.fetch q]
  | Page.err e :: _, q => [Ev.fetch q, Ev.resolve, Ev.error e, Ev.ended]
  | Page.ok items none :: _, q =>
      Ev.fetch q :: Ev.resolve :: (items.map Ev.push ++ [Ev.ended])
  | Page.ok items (some q2) :: restPages, q =>
      Ev.fetch q :: Ev.resolve :: (items.map Ev.push ++ idealTrace restPages (JSVal.obj q2))

/-- Checks the fetch/completion discipline of a trace: `n` fetches are in
flight (0 or 1); a new fetch may only be issued with none in flight, and a
completion only with one in flight. -/
def chk : List (Ev itemT) → Nat → Bool
  | [], _ => true
  | Ev.fetch _ :: tr, n => if n = 0 then chk tr 1 else false
  | Ev.resolve :: tr, n => if n = 1 then chk tr 0 else false
  | _ :: tr, n => chk tr n

/-- The spec-side limit-precedence function, written from §4.1 rule 3 of the
spec: the first numeric field among `maxResults`, `limitVal`, `pageSize`
sets the cap; absence of all three leaves it at -1. -/
def firstLimit (q : QueryObj) : Int :=
  match q.maxResults with
  | some n => n
  | none =>
    match q.limitVal with
    | some n => n
    | none =>
      match q.pageSize with
      | some n => n
      | none => -1

/-- A raw BigQuery list response: the optional continuation token and the
listed entries (`resp.datasets` / `resp.jobs`), modelled by their ids. -/
structure BQResp where
  nextPageToken : Option String := none
  datasets : List String := []
  jobs : List String := []
deriving Repr, DecidableEq

/-- The `(err, items, nextQuery)` triple a list-method callback receives
(the raw response argument is omitted: no claim mentions it). -/
structure ListResult where
  err : Option Nat
  items : List String
  nextQuery : Option QueryObj
deriving Repr, DecidableEq

/-- `if (resp.nextPageToken) { nextQuery = extend({}, query, { pageToken:
resp.nextPageToken }); }` (part_000, getDatasets lines 231-237 and getJobs
lines 326-332).  `extend({}, query, o)` builds a fresh object carrying every
field of `query` with those of `o` overwriting; it is embedded as a pure
record update, the original `query` value being untouched.  The `if` tests
JavaScript truthiness, so an empty-string token leaves `nextQuery` null. -/
def nextQueryOf (query : QueryObj) (tok : Option String) : Option QueryObj :=
  match tok with
  | some t => if t = "" then none else some { query with pageToken := some t }
  | none => none

/-- `BigQuery.prototype.getDatasets` (part_000 lines 215-246), from the point
where `makeReq_` has completed: on error the callback gets `(err, null,
null)`; on success it gets `(null, datasets, nextQuery)` with the datasets
mapped to `Dataset` objects (modelled by their ids) in response order. -/
def getDatasets (query : QueryObj) (r : Except Nat BQResp) : ListResult :=
  match r with
  | Except.error e => { err := some e, items := [], nextQuery := none }
  | Except.ok resp =>
      { err := none, items := resp.datasets,
        nextQuery := nextQueryOf query resp.nextPageToken }

/-- `BigQuery.prototype.getJobs` (part_000 lines 310-338), same shape as
`getDatasets` with `options` in place of `query` and jobs as items. -/
def getJobs (options : QueryObj) (r : Except Nat BQResp) : ListResult :=
  match r with
  | Except.error e => { err := some e, items := [], nextQuery := none }
  | Except.ok resp =>
      { err := none, items := resp.jobs,
        nextQuery := nextQueryOf options resp.nextPageToken }

/-- A caller-owned `options` object of `Job.prototype.getQueryResults`,
with the `job` field the method writes (holding a Job, modelled by its
numeric identity) and the opaque remaining fields. -/
structure QROptions where
  job : Option Nat := none
  rest : List (String × String) := []
deriving Repr, DecidableEq

/-- A heap of caller-owned option objects, addressed by `Nat`; object
identity (`Nat` address) makes in-place mutation observable. -/
abbrev OptStore := List (Nat × QROptions)

def storeGet (st : OptStore) (a : Nat) : Option QROptions :=
  match st with
  | [] => none
  | (b, o) :: t => if a = b then some o else storeGet t a

def storeSet (st : OptStore) (a : Nat) (o : QROptions) : OptStore :=
  match st with
  | [] => []
  | (b, p) :: t => if a = b then (b, o) :: t else (b, p) :: storeSet t a o

/-- The `options` argument of `getQueryResults`: a function (callback passed
first), a caller-owned object at a heap address, or absent. -/
inductive QRArg where
  | cb
  | objAt (a : Nat)
  | missing
deriving Repr, DecidableEq

def freshAddr (st : OptStore) : Nat :=
  (st.map Prod.fst).foldr (fun a b => max a b) 0 + 1

/-- `Job.prototype.getQueryResults(options, callback)` (job.js lines
151-161): if `options` is a function it becomes the callback and `options`
a fresh `{}`; `options = options || {}`; then `options.job = this` mutates
the object in place, and the very same object is passed to
`bigQuery.query`.  Returns the updated heap and the address handed to
`query`.  (`util.is(options, 'function')` is modelled from the spec, as for
`parseArguments_`.) -/
def getQueryResults (thisJob : Nat) (arg : QRArg) (st : OptStore) :
    OptStore × Nat :=
  match arg with
  | QRArg.objAt a =>
      (match storeGet st a with
       | some o => (storeSet st a { o with job := some thisJob }, a)
       | none => (st, a))
  | _ =>
      let a := freshAddr st
      ((a, { job := some thisJob }) :: st, a)

@[simp] theorem pushedOf_nil : pushedOf ([] : List (Ev itemT)) = [] := rfl

@[simp] theorem pushedOf_fetch (q : JSVal) (tr : List (Ev itemT)) :
    pushedOf (Ev.fetch q :: tr) = pushedOf tr := rfl

@[simp] theorem pushedOf_resolve (tr : List (Ev itemT)) :
    pushedOf (Ev.resolve :: tr) = pushedOf tr := rfl

@[simp] theorem pushedOf_push (x : itemT) (tr : List (Ev itemT)) :
    pushedOf (Ev.push x :: tr) = x :: pushedOf tr := rfl

@[simp] theorem pushedOf_error (n : Nat) (tr : List (Ev itemT)) :
    pushedOf (Ev.error n :: tr) = pushedOf tr := rfl

@[simp] theorem pushedOf_ended (tr : List (Ev itemT)) :
    pushedOf (Ev.ended :: tr) = pushedOf tr := rfl

@[simp] theorem pushedOf_append (a b : List (Ev itemT)) :
    pushedOf (a ++ b) = pushedOf a ++ pushedOf b :=
  List.filterMap_append ..

@[simp] theorem errorsOf_nil : errorsOf ([] : List (Ev itemT)) = [] := rfl

@[simp] theorem errorsOf_fetch (q : JSVal) (tr : List (Ev itemT)) :
    errorsOf (Ev.fetch q :: tr) = errorsOf tr := rfl

@[simp] theorem errorsOf_resolve (tr : List (Ev itemT)) :
    errorsOf (Ev.resolve :: tr) = errorsOf tr := rfl

@[simp] theorem errorsOf_push (x : itemT) (tr : List (Ev itemT)) :
    errorsOf (Ev.push x :: tr) = errorsOf tr := rfl

@[simp] theorem errorsOf_error (n : Nat) (tr : List (Ev itemT)) :
    errorsOf (Ev.error n :: tr) = n :: errorsOf tr := rfl

@[simp] theorem errorsOf_ended (tr : List (Ev itemT)) :
    errorsOf (Ev.ended :: tr) = errorsOf tr := rfl

@[simp] theorem errorsOf_append (a b : List (Ev itemT)) :
    errorsOf (a ++ b) = errorsOf a ++ errorsOf b :=
  List.filterMap_append ..

@[simp] theorem fetchCount_nil : fetchCount ([] : List (Ev itemT)) = 0 := rfl

@[simp] theorem fetchCount_fetch (q : JSVal) (tr : List (Ev itemT)) :
    fetchCount (Ev.fetch q :: tr) = fetchCount tr + 1 := by
  simp [fetchCount, isFetchEv, List.filter]

@[simp] theorem fetchCount_resolve (tr : List (Ev itemT)) :
    fetchCount (Ev.resolve :: tr) = fetchCount tr := by
  simp [fetchCount, isFetchEv, List.filter]

@[simp] theorem fetchCount_push (x : itemT) (tr : List (Ev itemT)) :
    fetchCount (Ev.push x :: tr) = fetchCount tr := by
  simp [fetchCount, isFetchEv, List.filter]

@[simp] theorem fetchCount_error (n : Nat) (tr : List (Ev itemT)) :
    fetchCount (Ev.error n :: tr) = fetchCount tr := by
  simp [fetchCount, isFetchEv, List.filter]

@[simp] theorem fetchCount_ended (tr : List (Ev itemT)) :
    fetchCount (Ev.ended :: tr) = fetchCount tr := by
  simp [fetchCount, isFetchEv, List.filter]

@[simp] theorem fetchCount_append (a b : List (Ev itemT)) :
    fetchCount (a ++ b) = fetchCount a + fetchCount b := by
  simp [fetchCount, List.filter_append]

@[simp] theorem pushedOf_map_push (xs : List itemT) :
    pushedOf (xs.map Ev.push) = xs := by
  induction xs with
  | nil => rfl
  | cons x rest ih => simp [ih]

@[simp] theorem errorsOf_map_push (xs : List itemT) :
    errorsOf (xs.map Ev.push) = [] := by
  induction xs with
  | nil => rfl
  | cons x rest ih => simp [ih]

@[simp] theorem fetchCount_map_push (xs : List itemT) :
    fetchCount (xs.map Ev.push) = 0 := by
  induction xs with
  | nil => rfl
  | cons x rest ih => simp [ih]

@[simp] theorem anyEnded_map_push (xs : List itemT) :
    (xs.map Ev.push).any isEndedEv = false := by
  induction xs with
  | nil => rfl
  | cons x rest ih => simp [isEndedEv, ih]

/-- The emission loop is a no-op on a stream that has already ended. -/
theorem emitLoop_of_ended (truthy : itemT → Bool) (ea : Option Nat)
    (xs : List itemT) (s : Drv) (h : s.ended = true) :
    emitLoop truthy ea xs s = ([], s) := by
  cases xs with
  | nil => rfl
  | cons x rest => simp [emitLoop, h]

/-- Uninterrupted emission: with truthy items, a cap that cannot run out on
this page and a consumer that does not end the stream within this page, the
loop pushes every item in order and decrements the counter once per item. -/
theorem emitLoop_all (ea : Option Nat) (xs : List itemT) (s : Drv)
    (hend : s.ended = false)
    (hrem : s.remaining < 0 ∨ (xs.length : Int) ≤ s.remaining)
    (hea : ∀ k, s.pushed < k → k ≤ s.pushed + xs.length → ea ≠ some k) :
    emitLoop (fun _ => true) ea xs s =
      (xs.map Ev.push,
        ⟨s.remaining - xs.length, s.pushed + xs.length, false⟩) := by
  induction xs generalizing s with
  | nil =>
    cases s with
    | mk r p e =>
      simp only at hend
      subst hend
      simp [emitLoop]
  | cons x rest ih =>
    have hne : s.remaining ≠ 0 := by
      rcases hrem with h | h
      · omega
      · simp only [List.length_cons] at h
        push_cast at h
        omega
    have hea1 : ea ≠ some (s.pushed + 1) := by
      refine hea (s.pushed + 1) (by omega) ?_
      simp only [List.length_cons]
      omega
    have ihr := ih ⟨s.remaining - 1, s.pushed + 1, false⟩ rfl
      (by
        rcases hrem with h | h
        · left; simp only; omega
        · right
          simp only [List.length_cons] at h
          simp only
          push_cast at h ⊢
          omega)
      (by
        intro k hk1 hk2
        simp only at hk1 hk2
        refine hea k (by omega) ?_
        simp only [List.length_cons]
        omega)
    simp only [emitLoop]
    rw [if_pos ⟨trivial, hne, hend⟩, if_neg hea1, ihr]
    simp only [List.map_cons, List.length_cons, Prod.mk.injEq, Drv.mk.injEq]
    refine ⟨trivial, ?_, by omega, trivial⟩
    push_cast
    ring

/-- Capped emission: with a nonnegative counter `m` not exceeding the page
size (and no consumer interference), the loop pushes exactly the first `m`
items and leaves the counter at zero. -/
theorem emitLoop_cap (xs : List itemT) (s : Drv) (m : Nat)
    (hend : s.ended = false) (hrem : s.remaining = (m : Int))
    (hm : m ≤ xs.length) :
    emitLoop (fun _ => true) none xs s =
      ((xs.take m).map Ev.push, ⟨0, s.pushed + m, false⟩) := by
  induction xs generalizing s m with
  | nil =>
    cases s with
    | mk r p e =>
      simp only [List.length_nil, Nat.le_zero] at hm
      subst hm
      simp only at hend hrem
      subst hend
      simp_all [emitLoop]
  | cons x rest ih =>
    cases m with
    | zero =>
      have hcond : ¬(True ∧ s.remaining ≠ 0 ∧ s.ended = false) := by
        rw [hrem]
        simp
      simp only [emitLoop]
      rw [if_neg hcond]
      cases s with
      | mk r p e =>
        simp only at hend hrem
        subst hend
        subst hrem
        simp
    | succ m0 =>
      have hne : s.remaining ≠ 0 := by rw [hrem]; push_cast; omega
      have ihr := ih ⟨s.remaining - 1, s.pushed + 1, false⟩ m0 rfl
        (by show s.remaining - 1 = (m0 : Int); rw [hrem]; push_cast; ring)
        (by simp only [List.length_cons] at hm; omega)
      simp only [emitLoop]
      rw [if_pos ⟨trivial, hne, hend⟩, if_neg (by simp), ihr]
      simp only [List.take_succ_cons, List.map_cons, Prod.mk.injEq, Drv.mk.injEq]
      exact ⟨trivial, trivial, by omega, trivial⟩

/-- Consumer-terminated emission: if the consumer ends the stream upon its
`j`-th item, the `j`-th item lies within this page and the cap cannot run
out first, the loop pushes items up to the `j`-th, the consumer's
`stream.end()` fires, and the loop stops with the flag set. -/
theorem emitLoop_consumer (xs : List itemT) (s : Drv) (j : Nat)
    (hend : s.ended = false) (hp : s.pushed < j)
    (hlen : j - s.pushed ≤ xs.length)
    (hrem : s.remaining < 0 ∨ ((j - s.pushed : Nat) : Int) ≤ s.remaining) :
    emitLoop (fun _ => true) (some j) xs s =
      ((xs.take (j - s.pushed)).map Ev.push ++ [Ev.ended],
        ⟨s.remaining - ((j - s.pushed : Nat) : Int), j, true⟩) := by
  induction xs generalizing s with
  | nil =>
    simp only [List.length_nil] at hlen
    omega
  | cons x rest ih =>
    have hne : s.remaining ≠ 0 := by
      rcases hrem with h | h
      · omega
      · omega
    by_cases hj : j = s.pushed + 1
    · simp only [emitLoop]
      rw [if_pos ⟨trivial, hne, hend⟩, if_pos (by rw [hj])]
      rw [emitLoop_of_ended _ _ _ _ rfl]
      have h1 : j - s.pushed = 1 := by omega
      simp [h1, hj]
    · have hp1 : s.pushed + 1 < j := by omega
      have ihr := ih ⟨s.remaining - 1, s.pushed + 1, false⟩ rfl (by simp only; omega)
        (by simp only [List.length_cons] at hlen; simp only; omega)
        (by
          simp only
          rcases hrem with h | h
          · left; omega
          · right; omega)
      simp only [emitLoop]
      rw [if_pos ⟨trivial, hne, hend⟩, if_neg (by simp; omega), ihr]
      have hsub : j - s.pushed = (j - (s.pushed + 1)) + 1 := by omega
      rw [hsub, List.take_succ_cons]
      simp only [List.map_cons, List.cons_append, Prod.mk.injEq, Drv.mk.injEq]
      refine ⟨trivial, ?_, trivial, trivial⟩
      push_cast
      ring

/-- An unbounded (`resultsToSend = -1`), uninterrupted run follows the chain
of continuations exactly: its trace is `idealTrace`, every chained item is
pushed, the counter keeps decrementing without ever reaching zero, and the
stream is ended iff the script settles the run. -/
theorem drive_unbounded (pages : List (Page itemT)) (q : JSVal) (s : Drv)
    (hend : s.ended = false) (hrem : s.remaining < 0) :
    drive (fun _ => true) none pages q s =
      (idealTrace pages q,
        ⟨s.remaining - (chainItems pages).length,
          s.pushed + (chainItems pages).length, ClosedB pages⟩) := by
  induction pages generalizing q s with
  | nil =>
    cases s with
    | mk r p e =>
      simp only at hend
      subst hend
      simp [drive, idealTrace, chainItems, ClosedB]
  | cons pg rest ih =>
    cases pg with
    | err e =>
      cases s with
      | mk r p en =>
        simp only at hend
        subst hend
        simp [drive, idealTrace, chainItems, ClosedB]
    | ok items next =>
      have hel := emitLoop_all none items s hend (Or.inl hrem)
        (fun k _ _ => by simp)
      have hne : s.remaining - (items.length : Int) ≠ 0 := by omega
      cases next with
      | none =>
        simp only [drive]
        rw [hel]
        rw [if_neg (by simp), if_neg hne]
        simp [idealTrace, chainItems, ClosedB]
      | some q2 =>
        have ihr := ih (JSVal.obj q2) ⟨s.remaining - items.length, s.pushed + items.length, false⟩
          rfl (by show s.remaining - (items.length : Int) < 0; omega)
        simp only [drive]
        rw [hel]
        rw [if_neg (by simp), if_neg hne]
        simp only
        rw [ihr]
        simp only [idealTrace, chainItems, ClosedB, List.length_append,
          Prod.mk.injEq, Drv.mk.injEq, List.cons.injEq]
        refine ⟨trivial, ?_, by omega, trivial⟩
        push_cast
        ring

/-- The pushes of an ideal trace are exactly the chained items. -/
theorem pushedOf_idealTrace (pages : List (Page itemT)) (q : JSVal) :
    pushedOf (idealTrace pages q) = chainItems pages := by
  induction pages generalizing q with
  | nil => simp [idealTrace, chainItems]
  | cons pg rest ih =>
    cases pg with
    | err e => simp [idealTrace, chainItems]
    | ok items next =>
      cases next with
      | none => simp [idealTrace, chainItems]
      | some q2 => simp [idealTrace, chainItems, ih]

/-- The errors of an ideal trace are exactly the first chained error. -/
theorem errorsOf_idealTrace (pages : List (Page itemT)) (q : JSVal) :
    errorsOf (idealTrace pages q) = (chainErr pages).toList := by
  induction pages generalizing q with
  | nil => simp [idealTrace, chainErr]
  | cons pg rest ih =>
    cases pg with
    | err e => simp [idealTrace, chainErr]
    | ok items next =>
      cases next with
      | none => simp [idealTrace, chainErr]
      | some q2 => simp [idealTrace, chainErr, ih]

/-- An ideal trace contains a `stream.end()` event iff the script settles
the run. -/
theorem anyEnded_idealTrace (pages : List (Page itemT)) (q : JSVal) :
    (idealTrace pages q).any isEndedEv = ClosedB pages := by
  induction pages generalizing q with
  | nil => simp [idealTrace, ClosedB, isEndedEv]
  | cons pg rest ih =>
    cases pg with
    | err e => simp [idealTrace, ClosedB, isEndedEv]
    | ok items next =>
      cases next with
      | none => simp [idealTrace, ClosedB, isEndedEv]
      | some q2 => simp [idealTrace, ClosedB, isEndedEv, ih]

/-- Aggregation over an ideal trace: one error call for a chained error,
one success call with all chained items for a settled error-free run,
nothing for a run whose last fetch never returns. -/
theorem aggCalls_idealTrace (pages : List (Page itemT)) (q : JSVal) :
    aggCalls (idealTrace pages q) =
      (match chainErr pages with
       | some e => [AggCall.err e]
       | none =>
         if ClosedB pages = true then [AggCall.ok (chainItems pages)] else []) := by
  unfold aggCalls
  rw [pushedOf_idealTrace, errorsOf_idealTrace, anyEnded_idealTrace]
  cases h : chainErr pages with
  | some e => simp
  | none => simp

/-- A capped, error-free, uninterrupted run: with `resultsToSend = m`,
`0 < m` and at least `m` items available along the chain, exactly the first
`m` chained items are pushed, the last fetch is the one supplying the
`m`-th item (`pagesFor`), no error occurs, and the stream is ended by the
driver with the counter at exactly zero. -/
theorem drive_cap (pages : List (Page itemT)) (q : JSVal) (s : Drv) (m : Nat)
    (hend : s.ended = false) (hm : 0 < m) (hrem : s.remaining = (m : Int))
    (hlen : m ≤ (chainItems pages).length) :
    pushedOf (drive (fun _ => true) none pages q s).1 = (chainItems pages).take m ∧
    fetchCount (drive (fun _ => true) none pages q s).1 = pagesFor m pages ∧
    errorsOf (drive (fun _ => true) none pages q s).1 = [] ∧
    (drive (fun _ => true) none pages q s).2.ended = true ∧
    (drive (fun _ => true) none pages q s).2.remaining = 0 := by
  induction pages generalizing q s m with
  | nil =>
    simp only [chainItems, List.length_nil] at hlen
    omega
  | cons pg rest ih =>
    cases pg with
    | err e =>
      simp only [chainItems, List.length_nil] at hlen
      omega
    | ok items next =>
      by_cases hc : m ≤ items.length
      · have hel := emitLoop_cap items s m hend hrem hc
        have htake : (chainItems (Page.ok items next :: rest)).take m = items.take m := by
          cases next with
          | none => simp [chainItems]
          | some q2 => simp [chainItems, List.take_append_of_le_length hc]
        have hpf : pagesFor m (Page.ok items next :: rest) = 1 := by
          simp [pagesFor, hc]
        simp only [drive]
        rw [hel]
        rw [if_neg (by simp), if_pos (by simp)]
        rw [htake, hpf]
        simp [← List.map_take]
      · have hnext : ∃ q2, next = some q2 := by
          cases next with
          | none =>
            exfalso
            simp only [chainItems] at hlen
            omega
          | some q2 => exact ⟨q2, rfl⟩
        obtain ⟨q2, rfl⟩ := hnext
        have hlen2 : m - items.length ≤ (chainItems rest).length := by
          simp only [chainItems, List.length_append] at hlen
          omega
        have hel := emitLoop_all none items s hend
          (Or.inr (by rw [hrem]; omega)) (fun k _ _ => by simp)
        have ihr := ih (JSVal.obj q2)
          ⟨s.remaining - items.length, s.pushed + items.length, false⟩
          (m - items.length) rfl (by omega)
          (by show s.remaining - (items.length : Int) = ((m - items.length : Nat) : Int)
              rw [hrem]; omega)
          hlen2
        have hne : s.remaining - (items.length : Int) ≠ 0 := by
          rw [hrem]; omega
        simp only [drive]
        rw [hel]
        rw [if_neg (by simp), if_neg hne]
        simp only
        obtain ⟨ih1, ih2, ih3, ih4, ih5⟩ := ihr
        refine ⟨?_, ?_, ?_, ih4, ih5⟩
        · simp only [pushedOf_fetch, pushedOf_resolve, pushedOf_append,
            pushedOf_map_push, ih1, chainItems]
          rw [List.take_append_eq_append_take,
            List.take_of_length_le (by omega : items.length ≤ m)]
        · simp only [fetchCount_fetch, fetchCount_resolve, fetchCount_append,
            fetchCount_map_push, ih2, pagesFor]
          rw [if_neg hc]
          omega
        · simp [ih3]

/-- A run whose consumer ends the stream upon receiving its `j`-th item,
with the `j`-th item available along the chain and the cap (if any) not
running out first: exactly the first `j` chained items are delivered, the
last fetch issued is the one supplying the `j`-th item, no error occurs and
the stream ends (by the consumer's own `stream.end()`). -/
theorem drive_consumer (pages : List (Page itemT)) (q : JSVal) (s : Drv) (j : Nat)
    (hend : s.ended = false) (hp : s.pushed < j)
    (hlen : j - s.pushed ≤ (chainItems pages).length)
    (hrem : s.remaining < 0 ∨ ((j - s.pushed : Nat) : Int) ≤ s.remaining) :
    pushedOf (drive (fun _ => true) (some j) pages q s).1 =
      (chainItems pages).take (j - s.pushed) ∧
    fetchCount (drive (fun _ => true) (some j) pages q s).1 =
      pagesFor (j - s.pushed) pages ∧
    errorsOf (drive (fun _ => true) (some j) pages q s).1 = [] ∧
    (drive (fun _ => true) (some j) pages q s).2.ended = true := by
  induction pages generalizing q s with
  | nil =>
    simp only [chainItems, List.length_nil] at hlen
    omega
  | cons pg rest ih =>
    cases pg with
    | err e =>
      simp only [chainItems, List.length_nil] at hlen
      omega
    | ok items next =>
      by_cases hc : j - s.pushed ≤ items.length
      · have hel := emitLoop_consumer items s j hend hp hc hrem
        have htake : (chainItems (Page.ok items next :: rest)).take (j - s.pushed) =
            items.take (j - s.pushed) := by
          cases next with
          | none => simp [chainItems]
          | some q2 => simp [chainItems, List.take_append_of_le_length hc]
        have hpf : pagesFor (j - s.pushed) (Page.ok items next :: rest) = 1 := by
          simp [pagesFor, hc]
        simp only [drive]
        rw [hel]
        rw [if_pos (by simp)]
        rw [htake, hpf]
        simp [← List.map_take]
      · have hnext : ∃ q2, next = some q2 := by
          cases next with
          | none =>
            exfalso
            simp only [chainItems] at hlen
            omega
          | some q2 => exact ⟨q2, rfl⟩
        obtain ⟨q2, rfl⟩ := hnext
        have hlen2 : j - (s.pushed + items.length) ≤ (chainItems rest).length := by
          simp only [chainItems, List.length_append] at hlen
          omega
        have hel := emitLoop_all (some j) items s hend
          (by
            rcases hrem with h | h
            · exact Or.inl h
            · exact Or.inr (by omega))
          (by
            intro k hk1 hk2
            intro hkk
            cases hkk
            omega)
        have ihr := ih (JSVal.obj q2)
          ⟨s.remaining - items.length, s.pushed + items.length, false⟩
          rfl (by simp only; omega)
          (by simp only; exact hlen2)
          (by
            simp only
            rcases hrem with h | h
            · exact Or.inl (by omega)
            · exact Or.inr (by omega))
        have hne : s.remaining - (items.length : Int) ≠ 0 := by
          rcases hrem with h | h
          · omega
          · omega
        simp only [drive]
        rw [hel]
        rw [if_neg (by simp), if_neg hne]
        simp only
        obtain ⟨ih1, ih2, ih3, ih4⟩ := ihr
        refine ⟨?_, ?_, ?_, ih4⟩
        · simp only [pushedOf_fetch, pushedOf_resolve, pushedOf_append,
            pushedOf_map_push, ih1, chainItems]
          rw [List.take_append_eq_append_take,
            List.take_of_length_le (by omega : items.length ≤ j - s.pushed)]
          have : j - s.pushed - items.length = j - (s.pushed + items.length) := by omega
          rw [this]
        · simp only [fetchCount_fetch, fetchCount_resolve, fetchCount_append,
            fetchCount_map_push, ih2, pagesFor]
          rw [if_neg hc]
          have : j - s.pushed - items.length = j - (s.pushed + items.length) := by omega
          rw [this]
          omega
        · simp [ih3]

/-- The emission loop issues no fetch and completes no fetch: prefixing its
events leaves the fetch/completion discipline checker unchanged. -/
theorem chk_emitLoop (truthy : itemT → Bool) (ea : Option Nat)
    (xs : List itemT) (s : Drv) (l : List (Ev itemT)) (n : Nat) :
    chk ((emitLoop truthy ea xs s).1 ++ l) n = chk l n := by
  induction xs generalizing s with
  | nil => simp [emitLoop]
  | cons x rest ih =>
    simp only [emitLoop]
    split
    · split
      · simp only [List.cons_append, chk]
        exact ih _
      · simp only [List.cons_append, chk]
        exact ih _
    · simp

/-- Every trace of the driver respects the fetch discipline: a fetch is only
issued with no fetch in flight, and every later fetch strictly follows the
completion callback of the previous one. -/
theorem chk_drive (truthy : itemT → Bool) (ea : Option Nat)
    (pages : List (Page itemT)) (q : JSVal) (s : Drv) :
    chk (drive truthy ea pages q s).1 0 = true := by
  induction pages generalizing q s with
  | nil => simp [drive, chk]
  | cons pg rest ih =>
    cases pg with
    | err e => simp [drive, chk]
    | ok items next =>
      simp only [drive]
      split
      · simp only [chk, if_pos]
        have h := chk_emitLoop truthy ea items s [] 0
        simpa using h
      · split
        · simp only [chk, if_pos]
          have h := chk_emitLoop truthy ea items s [Ev.ended] 0
          simp only [chk] at h
          simpa using h
        · split
          · simp only [chk, if_pos]
            rw [chk_emitLoop]
            exact ih _ _
          · simp only [chk, if_pos]
            have h := chk_emitLoop truthy ea items s [Ev.ended] 0
            simp only [chk] at h
            simpa using h

/-- The emission loop never increases `resultsToSend`. -/
theorem emitLoop_remaining_le (truthy : itemT → Bool) (ea : Option Nat)
    (xs : List itemT) (s : Drv) :
    (emitLoop truthy ea xs s).2.remaining ≤ s.remaining := by
  induction xs generalizing s with
  | nil => simp [emitLoop]
  | cons x rest ih =>
    simp only [emitLoop]
    split
    · split
      · exact le_trans (ih _) (by show s.remaining - 1 ≤ s.remaining; omega)
      · exact le_trans (ih _) (by show s.remaining - 1 ≤ s.remaining; omega)
    · simp

/-- The driver never increases `resultsToSend`: across a whole run the
counter only decreases. -/
theorem drive_remaining_le (truthy : itemT → Bool) (ea : Option Nat)
    (pages : List (Page itemT)) (q : JSVal) (s : Drv) :
    (drive truthy ea pages q s).2.remaining ≤ s.remaining := by
  induction pages generalizing q s with
  | nil => simp [drive]
  | cons pg rest ih =>
    cases pg with
    | err e => simp [drive]
    | ok items next =>
      simp only [drive]
      split
      · exact emitLoop_remaining_le truthy ea items s
      · split
        · exact emitLoop_remaining_le truthy ea items s
        · split
          · exact le_trans (ih _ _) (emitLoop_remaining_le truthy ea items s)
          · exact emitLoop_remaining_le truthy ea items s

/-- Once the `streamEnded` flag is set it never reverts: a run entered with
the flag set leaves it set (the emission loop is a no-op and the driver
returns at its first flag check). -/
theorem drive_ended_mono (truthy : itemT → Bool) (ea : Option Nat)
    (pages : List (Page itemT)) (q : JSVal) (s : Drv) (h : s.ended = true) :
    (drive truthy ea pages q s).2.ended = true := by
  cases pages with
  | nil => simpa [drive]
  | cons pg rest =>
    cases pg with
    | err e => simp [drive]
    | ok items next =>
      simp only [drive]
      rw [emitLoop_of_ended truthy ea items s h]
      rw [if_pos h]
      exact h

/-- In the normalizer's output, a present callback together with
auto-pagination left enabled forces the computed cap to be -1 (a callback
plus any other computed cap would have disabled auto-pagination). -/
theorem parse_cb_auto_unbounded (args : List JSVal)
    (hcb : (parseArguments_ args).hasCallback = true)
    (hap : (parseArguments_ args).autoPaginate = true) :
    (parseArguments_ args).maxResults = -1 := by
  unfold parseArguments_ at hcb hap ⊢
  rw [List.headD_eq_head?_getD] at hcb hap ⊢
  cases hF : args.head?.getD JSVal.undef with
  | undef => simp [hF, isFunction]
  | fn => simp [hF, isFunction]
  | str sv => simp [hF, isFunction]
  | num nv => simp [hF, isFunction]
  | obj qe =>
    simp [hF, isFunction] at hcb hap ⊢
    rcases hap with h | h
    · rw [hcb] at h
      cases h
    · exact h.1

/-- Aggregate-mode routing, characterised over any normalizer output with a
callback and auto-pagination: the run is unbounded (`parse_cb_auto_unbounded`)
and uninterrupted, so the user callback calls are exactly one error call for
a chained fetch error, or one success call with every chained item for a
settled error-free script (and none for a script whose last fetch never
calls back). -/
theorem routerAggEq (args : List JSVal) (pages : List (Page itemT))
    (hcb : (parseArguments_ args).hasCallback = true)
    (hap : (parseArguments_ args).autoPaginate = true) :
    router_ (fun _ => true) (parseArguments_ args) pages =
      RouterOut.agg
        (match chainErr pages with
         | some e => [AggCall.err e]
         | none =>
           if ClosedB pages = true then [AggCall.ok (chainItems pages)]
           else []) := by
  have hmr := parse_cb_auto_unbounded args hcb hap
  unfold router_
  rw [if_pos hcb, if_pos hap]
  unfold runAsStream_
  rw [if_pos rfl]
  have hs : (⟨(parseArguments_ args).maxResults, 0, false⟩ : Drv) =
      ⟨-1, 0, false⟩ := by rw [hmr]
  rw [hs, drive_unbounded pages (parseArguments_ args).query ⟨-1, 0, false⟩ rfl
    (by norm_num)]
  rw [show (Prod.fst (α := List (Ev itemT)) (β := Drv)
      (idealTrace pages (parseArguments_ args).query, _)) =
      idealTrace pages (parseArguments_ args).query from rfl]
  rw [aggCalls_idealTrace]

/-- C1: In aggregate mode (callback present, autoPaginate true), for every
fetch-result script that settles the run, the user callback is invoked
exactly once: with `(null, allItems)` after a normal end, or with the first
fetch error and no items — never both and never twice; items collected
before a failure are discarded, not delivered.  (The right-hand sides are
singleton call lists: `AggCall.err` carries no items, and the success call
carries every chained item in order.) -/
theorem spec_C1 (args : List JSVal) (pages : List (Page itemT))
    (hcl : ClosedB pages = true)
    (hcb : (parseArguments_ args).hasCallback = true)
    (hap : (parseArguments_ args).autoPaginate = true) :
    router_ (fun _ => true) (parseArguments_ args) pages =
      RouterOut.agg
        (match chainErr pages with
         | some e => [AggCall.err e]
         | none => [AggCall.ok (chainItems pages)]) := by
  rw [routerAggEq args pages hcb hap]
  cases chainErr pages with
  | some e => rfl
  | none => simp [hcl]

/-- Witness for C1 at a concrete input: an error-free single-page script
aggregates to exactly one `(null, allItems)` call. -/
theorem spec_C1_witness :
    router_ (fun _ => true) (parseArguments_ [JSVal.obj {}, JSVal.fn])
      [Page.ok ([10, 20] : List Nat) none] =
      RouterOut.agg [AggCall.ok [10, 20]] := by
  have h := spec_C1 [JSVal.obj {}, JSVal.fn] [Page.ok ([10, 20] : List Nat) none]
    (by decide) (by decide) (by decide)
  simpa [chainErr, chainItems] using h

/-- C2 counterexample: the claim quantifies over every stream invocation,
but a stream invocation whose descriptor carries a cap — e.g. the query
`{ maxResults: 2 }` with no callback — emits only the first 2 items of a
3-item first page that has no continuation token and no error, not all of
them.  (A consumer may likewise end the stream early.)  So "the stream emits
exactly the items of that page (all of them)" fails as stated. -/
theorem spec_C2_cex :
    pushedOf (runAsStream_ (fun _ => true) ⟨true, none⟩
        (parseArguments_ [JSVal.obj { maxResults := some 2 }])
        [Page.ok ([1, 2, 3] : List Nat) none]).1 = [1, 2] ∧
    ([1, 2] : List Nat) ≠ [1, 2, 3] := by decide

/-- C2 (amended): for every stream invocation whose descriptor is unbounded
(`maxResults = -1`) and whose consumer does not end the stream early, if the
first page response has no continuation token and no error, the stream
emits exactly the items of that page, in the fetch's order, then ends (one
fetch, completion, the pushes in order, `stream.end()`); and in aggregate
mode over the same script the callback receives that same ordered sequence
as its single array argument. -/
theorem spec_C2 (parsed : ParsedArguments) (xs : List itemT)
    (rest : List (Page itemT)) (hmr : parsed.maxResults = -1) :
    (runAsStream_ (fun _ => true) ⟨true, none⟩ parsed
        (Page.ok xs none :: rest)).1 =
      Ev.fetch parsed.query :: Ev.resolve :: (xs.map Ev.push ++ [Ev.ended]) ∧
    (∀ args : List JSVal,
      (parseArguments_ args).hasCallback = true →
      (parseArguments_ args).autoPaginate = true →
      router_ (fun _ => true) (parseArguments_ args) (Page.ok xs none :: rest) =
        RouterOut.agg [AggCall.ok xs]) := by
  constructor
  · unfold runAsStream_
    rw [if_pos rfl]
    have hs : (⟨parsed.maxResults, 0, false⟩ : Drv) = ⟨-1, 0, false⟩ := by
      rw [hmr]
    rw [hs, drive_unbounded (Page.ok xs none :: rest) parsed.query ⟨-1, 0, false⟩
      rfl (by norm_num)]
    simp [idealTrace]
  · intro args hcb hap
    rw [routerAggEq args (Page.ok xs none :: rest) hcb hap]
    simp [chainErr, ClosedB, chainItems]

/-- Witness for C2 (amended) at a concrete input. -/
theorem spec_C2_witness :
    (runAsStream_ (fun _ => true) ⟨true, none⟩
        (⟨JSVal.obj {}, false, -1, true⟩ : ParsedArguments)
        [Page.ok ([7, 8] : List Nat) none]).1 =
      Ev.fetch (JSVal.obj {}) :: Ev.resolve ::
        ([7, 8].map Ev.push ++ [Ev.ended]) ∧
    router_ (fun _ => true) (parseArguments_ [JSVal.obj {}, JSVal.fn])
      [Page.ok ([7, 8] : List Nat) none] = RouterOut.agg [AggCall.ok [7, 8]] := by
  obtain ⟨h1, h2⟩ := spec_C2 (⟨JSVal.obj {}, false, -1, true⟩ : ParsedArguments)
    ([7, 8] : List Nat) [] rfl
  exact ⟨h1, h2 [JSVal.obj {}, JSVal.fn] (by decide) (by decide)⟩

/-- C4: for every stream invocation, no page-fetch call is issued before the
consumer begins reading (a never-read stream has an empty trace), and once
reading starts, at every point at most one page-fetch call is in flight:
`chk` accepts only traces in which every fetch is issued with none pending
and each subsequent fetch follows the completion callback of the previous
one. -/
theorem spec_C4 (truthy : itemT → Bool) (ea : Option Nat) (c : Consumer)
    (parsed : ParsedArguments) (pages : List (Page itemT)) :
    (runAsStream_ truthy ⟨false, ea⟩ parsed pages).1 = [] ∧
    chk (runAsStream_ truthy c parsed pages).1 0 = true := by
  constructor
  · simp [runAsStream_]
  · unfold runAsStream_
    by_cases hr : c.reads = true
    · rw [if_pos hr]
      exact chk_drive truthy c.endAfter pages parsed.query _
    · rw [if_neg hr]
      rfl

/-- C3: for every descriptor with `maxResults = m` (0 < m < total available
items) and every multi-page result sequence (error-free along the part
traversed), the stream emits exactly `m` items — the first `m` chained
items, in order — and issues no fetch beyond the one that supplied the
`m`-th item (`pagesFor m`), even when that page's response carries a
continuation token; when the remaining counter reaches exactly zero the
stream is ended with the counter at zero. -/
theorem spec_C3 (parsed : ParsedArguments) (pages : List (Page itemT)) (m : Nat)
    (hmr : parsed.maxResults = (m : Int)) (h0 : 0 < m)
    (hub : m < (chainItems pages).length) :
    pushedOf (runAsStream_ (fun _ => true) ⟨true, none⟩ parsed pages).1 =
      (chainItems pages).take m ∧
    (pushedOf (runAsStream_ (fun _ => true) ⟨true, none⟩ parsed pages).1).length = m ∧
    fetchCount (runAsStream_ (fun _ => true) ⟨true, none⟩ parsed pages).1 =
      pagesFor m pages ∧
    errorsOf (runAsStream_ (fun _ => true) ⟨true, none⟩ parsed pages).1 = [] ∧
    (runAsStream_ (fun _ => true) ⟨true, none⟩ parsed pages).2.ended = true ∧
    (runAsStream_ (fun _ => true) ⟨true, none⟩ parsed pages).2.remaining = 0 := by
  unfold runAsStream_
  rw [if_pos rfl]
  have hs : (⟨parsed.maxResults, 0, false⟩ : Drv) = ⟨(m : Int), 0, false⟩ := by
    rw [hmr]
  rw [hs]
  obtain ⟨h1, h2, h3, h4, h5⟩ :=
    drive_cap pages parsed.query ⟨(m : Int), 0, false⟩ m rfl h0 rfl (le_of_lt hub)
  refine ⟨h1, ?_, h2, h3, h4, h5⟩
  rw [h1, List.length_take]
  omega

/-- Witness for C3 at a concrete input: cap 2 over pages `[10]`,`[20,30]`
(the second carrying no token is irrelevant: the cap stops the run). -/
theorem spec_C3_witness :
    pushedOf (runAsStream_ (fun _ => true) ⟨true, none⟩
        (⟨JSVal.obj {}, false, 2, true⟩ : ParsedArguments)
        [Page.ok ([10] : List Nat) (some {}), Page.ok [20, 30] none]).1 =
      [10, 20] ∧
    fetchCount (runAsStream_ (fun _ => true) ⟨true, none⟩
        (⟨JSVal.obj {}, false, 2, true⟩ : ParsedArguments)
        [Page.ok ([10] : List Nat) (some {}), Page.ok [20, 30] none]).1 = 2 ∧
    (runAsStream_ (fun _ => true) ⟨true, none⟩
        (⟨JSVal.obj {}, false, 2, true⟩ : ParsedArguments)
        [Page.ok ([10] : List Nat) (some {}), Page.ok [20, 30] none]).2.ended =
      true := by
  obtain ⟨h1, h2, h3, h4, h5, h6⟩ := spec_C3
    (⟨JSVal.obj {}, false, 2, true⟩ : ParsedArguments)
    [Page.ok ([10] : List Nat) (some {}), Page.ok [20, 30] none] 2
    (by decide) (by decide) (by decide)
  exact ⟨h1.trans (by decide), h3.trans (by decide), h5⟩

/-- C7: for every stream invocation in which the consumer ends the stream
upon receiving the j-th item (j < total available items, and the cap — if
any — does not run out first), no further items are emitted (exactly the
first j chained items are delivered) and no further fetch calls are issued
beyond the one in flight at that moment (`pagesFor j`, the fetch that
supplied the j-th item); the run ends with the `streamEnded` flag set, the
flag being checked before each push and before deciding to continue. -/
theorem spec_C7 (parsed : ParsedArguments) (pages : List (Page itemT)) (j : Nat)
    (h0 : 0 < j) (hub : j < (chainItems pages).length)
    (hcap : parsed.maxResults = -1 ∨ (j : Int) ≤ parsed.maxResults) :
    pushedOf (runAsStream_ (fun _ => true) ⟨true, some j⟩ parsed pages).1 =
      (chainItems pages).take j ∧
    (pushedOf (runAsStream_ (fun _ => true) ⟨true, some j⟩ parsed pages).1).length = j ∧
    fetchCount (runAsStream_ (fun _ => true) ⟨true, some j⟩ parsed pages).1 =
      pagesFor j pages ∧
    errorsOf (runAsStream_ (fun _ => true) ⟨true, some j⟩ parsed pages).1 = [] ∧
    (runAsStream_ (fun _ => true) ⟨true, some j⟩ parsed pages).2.ended = true := by
  unfold runAsStream_
  rw [if_pos rfl]
  obtain ⟨h1, h2, h3, h4⟩ :=
    drive_consumer pages parsed.query ⟨parsed.maxResults, 0, false⟩ j rfl h0
      (by simpa using le_of_lt hub)
      (by
        rcases hcap with h | h
        · exact Or.inl (by show parsed.maxResults < 0; omega)
        · exact Or.inr (by show ((j - 0 : Nat) : Int) ≤ parsed.maxResults; simpa using h))
  simp only [Nat.sub_zero] at h1 h2
  refine ⟨h1, ?_, h2, h3, h4⟩
  rw [h1, List.length_take]
  omega

/-- Witness for C7 at a concrete input: the consumer ends the stream upon
its 2nd item; pages 3 and beyond are never fetched. -/
theorem spec_C7_witness :
    pushedOf (runAsStream_ (fun _ => true) ⟨true, some 2⟩
        (⟨JSVal.obj {}, false, -1, true⟩ : ParsedArguments)
        [Page.ok ([10] : List Nat) (some {}), Page.ok [20, 30] (some {}),
          Page.ok [40] none]).1 = [10, 20] ∧
    fetchCount (runAsStream_ (fun _ => true) ⟨true, some 2⟩
        (⟨JSVal.obj {}, false, -1, true⟩ : ParsedArguments)
        [Page.ok ([10] : List Nat) (some {}), Page.ok [20, 30] (some {}),
          Page.ok [40] none]).1 = 2 ∧
    (runAsStream_ (fun _ => true) ⟨true, some 2⟩
        (⟨JSVal.obj {}, false, -1, true⟩ : ParsedArguments)
        [Page.ok ([10] : List Nat) (some {}), Page.ok [20, 30] (some {}),
          Page.ok [40] none]).2.ended = true := by
  obtain ⟨h1, h2, h3, h4, h5⟩ := spec_C7
    (⟨JSVal.obj {}, false, -1, true⟩ : ParsedArguments)
    [Page.ok ([10] : List Nat) (some {}), Page.ok [20, 30] (some {}),
      Page.ok [40] none] 2 (by decide) (by decide) (Or.inl rfl)
  exact ⟨h1.trans (by decide), h3.trans (by decide), h5⟩

/-- C8: for every invocation with `maxResults = -1` (unbounded) and an
uninterrupted consumer, the cap logic never ends the stream: every chained
item is pushed no matter how many there are, and the run ends with no error
exactly when the script naturally exhausts (a settled, error-free chain —
the only normal termination).  Moreover, for every run whatever its
parameters, the remaining counter only decreases, and once the ended flag
is true it never reverts. -/
theorem spec_C8 (parsed : ParsedArguments) (pages : List (Page itemT))
    (hmr : parsed.maxResults = -1) :
    pushedOf (runAsStream_ (fun _ => true) ⟨true, none⟩ parsed pages).1 =
      chainItems pages ∧
    (((runAsStream_ (fun _ => true) ⟨true, none⟩ parsed pages).2.ended = true ∧
        errorsOf (runAsStream_ (fun _ => true) ⟨true, none⟩ parsed pages).1 = []) ↔
      (ClosedB pages = true ∧ chainErr pages = none)) ∧
    (∀ (truthy : itemT → Bool) (ea : Option Nat) (pages2 : List (Page itemT))
        (q : JSVal) (s : Drv),
      (drive truthy ea pages2 q s).2.remaining ≤ s.remaining ∧
        (s.ended = true → (drive truthy ea pages2 q s).2.ended = true)) := by
  have hs : (⟨parsed.maxResults, 0, false⟩ : Drv) = ⟨-1, 0, false⟩ := by rw [hmr]
  have hrun : runAsStream_ (fun _ => true) ⟨true, none⟩ parsed pages =
      (idealTrace pages parsed.query,
        ⟨-1 - (chainItems pages).length, 0 + (chainItems pages).length,
          ClosedB pages⟩) := by
    unfold runAsStream_
    rw [if_pos rfl, hs,
      drive_unbounded pages parsed.query ⟨-1, 0, false⟩ rfl (by norm_num)]
  rw [hrun]
  refine ⟨?_, ?_, ?_⟩
  · exact pushedOf_idealTrace pages parsed.query
  · rw [show (⟨-1 - ((chainItems pages).length : Int),
        0 + (chainItems pages).length, ClosedB pages⟩ : Drv).ended =
        ClosedB pages from rfl]
    rw [errorsOf_idealTrace]
    constructor
    · rintro ⟨hc, he⟩
      refine ⟨hc, ?_⟩
      cases h : chainErr pages with
      | none => rfl
      | some e => rw [h] at he; cases he
    · rintro ⟨hc, he⟩
      exact ⟨hc, by rw [he]; rfl⟩
  · intro truthy ea pages2 q s
    exact ⟨drive_remaining_le truthy ea pages2 q s,
      fun h => drive_ended_mono truthy ea pages2 q s h⟩

/-- Witness for C8 at a concrete input: a two-page unbounded run pushes all
chained items and ends normally; a run entered with the flag set keeps it. -/
theorem spec_C8_witness :
    pushedOf (runAsStream_ (fun _ => true) ⟨true, none⟩
        (⟨JSVal.obj {}, false, -1, true⟩ : ParsedArguments)
        [Page.ok ([5] : List Nat) (some {}), Page.ok [6] none]).1 = [5, 6] ∧
    (drive (fun _ : Nat => true) none [] (JSVal.obj {}) ⟨-1, 0, true⟩).2.ended =
      true := by
  obtain ⟨h1, h2, h3⟩ := spec_C8
    (⟨JSVal.obj {}, false, -1, true⟩ : ParsedArguments)
    [Page.ok ([5] : List Nat) (some {}), Page.ok [6] none] rfl
  exact ⟨h1.trans (by decide),
    (h3 (fun _ => true) none [] (JSVal.obj {}) ⟨-1, 0, true⟩).2 rfl⟩

/-- C5 counterexample: with the query `{ maxResults: -1 }` and a callback,
a numeric limit field is present (`maxResults.isSome`), yet the normalizer
leaves `autoPaginate` true, because the code tests the computed value
(`maxResults !== -1`), not the presence of a numeric field.  The claim says
auto-pagination is forced false whenever a callback is present and a
numeric limit field was found. -/
theorem spec_C5_cex :
    (parseArguments_ [JSVal.obj { maxResults := some (-1) },
        JSVal.fn]).hasCallback = true ∧
    ({ maxResults := some (-1) } : QueryObj).maxResults.isSome = true ∧
    (parseArguments_ [JSVal.obj { maxResults := some (-1) },
        JSVal.fn]).autoPaginate = true := by decide

/-- C5 (amended): for every argument shape, the normalizer leaves
`autoPaginate` true unless a callback is present AND the query is an
associative object for which the computed `maxResults` differs from -1 (a
numeric limit field with value other than -1 was found) or that has
`autoPaginate === false` or `autoPaginateVal === false`; when `autoPaginate`
is thus forced false, the router invokes the page-fetch operation exactly
once, passing the raw first fetch result to the callback with no
continuation performed — in particular `({maxResults: 5}, callback)` with no
explicit `autoPaginate` takes this bounded single-pass path. -/
theorem spec_C5 :
    (∀ args : List JSVal,
      (parseArguments_ args).autoPaginate = false ↔
        ((parseArguments_ args).hasCallback = true ∧
          ∃ q, queryObjOf args = some q ∧
            ((parseArguments_ args).maxResults ≠ -1 ∨
              q.autoPaginate = some false ∨ q.autoPaginateVal = some false))) ∧
    (∀ (itemT : Type) (truthy : itemT → Bool) (parsed : ParsedArguments)
        (pages : List (Page itemT)),
      parsed.hasCallback = true → parsed.autoPaginate = false →
        router_ truthy parsed pages = RouterOut.single parsed.query pages.head?) ∧
    (∀ (itemT : Type) (truthy : itemT → Bool) (pages : List (Page itemT)),
      router_ truthy
          (parseArguments_ [JSVal.obj { maxResults := some 5 }, JSVal.fn]) pages =
        RouterOut.single (JSVal.obj { maxResults := some 5 }) pages.head?) := by
  refine ⟨?_, ?_, ?_⟩
  · intro args
    unfold parseArguments_ queryObjOf
    simp only [List.headD_eq_head?_getD]
    cases hF : args.head?.getD JSVal.undef with
    | undef => simp [hF, isFunction]
    | fn => simp [hF, isFunction]
    | str sv => simp [hF, isFunction]
    | num nv => simp [hF, isFunction]
    | obj qe =>
      simp [hF, isFunction]
      tauto
  · intro itemT truthy parsed pages hcb hap
    unfold router_
    rw [if_pos hcb, hap]
    rfl
  · intro itemT truthy pages
    have hcb : (parseArguments_ [JSVal.obj { maxResults := some 5 },
        JSVal.fn]).hasCallback = true := by decide
    have hap : (parseArguments_ [JSVal.obj { maxResults := some 5 },
        JSVal.fn]).autoPaginate = false := by decide
    unfold router_
    rw [if_pos hcb, hap]
    rfl

/-- Witness for C5 (amended) at concrete inputs: the normalizer's forced-
false condition holds for `({maxResults: 5}, callback)`, and the router then
performs the single raw pass-through call. -/
theorem spec_C5_witness :
    ((parseArguments_ [JSVal.obj { maxResults := some 5 },
        JSVal.fn]).autoPaginate = false ↔
      ((parseArguments_ [JSVal.obj { maxResults := some 5 },
          JSVal.fn]).hasCallback = true ∧
        ∃ q, queryObjOf [JSVal.obj { maxResults := some 5 }, JSVal.fn] = some q ∧
          ((parseArguments_ [JSVal.obj { maxResults := some 5 },
              JSVal.fn]).maxResults ≠ -1 ∨
            q.autoPaginate = some false ∨ q.autoPaginateVal = some false))) ∧
    router_ (fun _ : Nat => true)
        (parseArguments_ [JSVal.obj { maxResults := some 5 }, JSVal.fn])
        [Page.ok ([1] : List Nat) none] =
      RouterOut.single (JSVal.obj { maxResults := some 5 })
        (some (Page.ok [1] none)) := by
  constructor
  · exact spec_C5.1 [JSVal.obj { maxResults := some 5 }, JSVal.fn]
  · have h := spec_C5.2.2 Nat (fun _ => true) [Page.ok ([1] : List Nat) none]
    simpa using h

/-- C6: for every associative query object, the normalizer sets `maxResults`
from the first numeric field found in the fixed precedence order
`maxResults`, then `limitVal`, then `pageSize` — the first match wins when
several are present — and leaves `maxResults` at -1 when none of the three
is present (`firstLimit` is that precedence order, written from the spec). -/
theorem spec_C6 (args : List JSVal) (q : QueryObj)
    (h : queryObjOf args = some q) :
    (parseArguments_ args).maxResults = firstLimit q := by
  unfold parseArguments_
  unfold queryObjOf at h
  simp only [List.headD_eq_head?_getD] at h ⊢
  cases hF : args.head?.getD JSVal.undef with
  | undef => rw [hF] at h; cases h
  | fn => rw [hF] at h; cases h
  | str sv => rw [hF] at h; cases h
  | num nv => rw [hF] at h; cases h
  | obj qe =>
    rw [hF] at h
    have hq : qe = q := by
      simpa using h
    subst hq
    simp [isFunction, firstLimit]

/-- Witness for C6 at a concrete input: `limitVal` beats `pageSize` when
both are present and `maxResults` is absent. -/
theorem spec_C6_witness :
    (parseArguments_
        [JSVal.obj { limitVal := some 7, pageSize := some 9 }]).maxResults =
      7 := by
  have h := spec_C6 [JSVal.obj { limitVal := some 7, pageSize := some 9 }]
    { limitVal := some 7, pageSize := some 9 } (by decide)
  exact h.trans (by decide)

/-- C9 counterexample: a successful response that carries an empty-string
`nextPageToken` is falsy to the `if (resp.nextPageToken)` test, so the
callback's `nextQuery` is null even though the response carries a
`nextPageToken`; the claim says `nextQuery` is null exactly when the
response carries no `nextPageToken`. -/
theorem spec_C9_cex :
    (getDatasets {}
        (Except.ok { nextPageToken := some "", datasets := ["d1"] })).nextQuery =
      none ∧
    ({ nextPageToken := some "", datasets := ["d1"] } : BQResp).nextPageToken ≠
      none := by decide

/-- C9 (amended): for every successful getDatasets (and getJobs) response,
the `nextQuery` passed to the callback is null exactly when the response
carries no non-empty `nextPageToken`; otherwise `nextQuery` is a freshly
constructed copy of the caller's query with the continuation-token field
added or overwritten and every other field preserved — the caller's
original query value is left unmodified (`extend({}, query, ...)` builds a
new object, embedded as a pure record update of an untouched `q`). -/
theorem spec_C9 (q : QueryObj) (resp : BQResp) :
    ((getDatasets q (Except.ok resp)).nextQuery = none ↔
      (resp.nextPageToken = none ∨ resp.nextPageToken = some "")) ∧
    (∀ t, resp.nextPageToken = some t → t ≠ "" →
      (getDatasets q (Except.ok resp)).nextQuery =
        some { q with pageToken := some t }) ∧
    (∀ q2, (getDatasets q (Except.ok resp)).nextQuery = some q2 →
      q2.maxResults = q.maxResults ∧ q2.limitVal = q.limitVal ∧
      q2.pageSize = q.pageSize ∧ q2.autoPaginate = q.autoPaginate ∧
      q2.autoPaginateVal = q.autoPaginateVal ∧ q2.rest = q.rest) ∧
    (getJobs q (Except.ok resp)).nextQuery =
      (getDatasets q (Except.ok resp)).nextQuery := by
  refine ⟨?_, ?_, ?_, ?_⟩
  · cases hT : resp.nextPageToken with
    | none => simp [getDatasets, nextQueryOf, hT]
    | some t =>
      by_cases ht : t = ""
      · subst ht
        simp [getDatasets, nextQueryOf, hT]
      · simp [getDatasets, nextQueryOf, hT, ht]
  · intro t hT ht
    simp [getDatasets, nextQueryOf, hT, ht]
  · intro q2 h2
    cases hT : resp.nextPageToken with
    | none => simp [getDatasets, nextQueryOf, hT] at h2
    | some t =>
      by_cases ht : t = ""
      · subst ht
        simp [getDatasets, nextQueryOf, hT] at h2
      · simp [getDatasets, nextQueryOf, hT, ht] at h2
        subst h2
        simp
  · simp [getDatasets, getJobs]

/-- Witness for C9 (amended) at a concrete input: a non-empty token yields a
copy of the query with `pageToken` overwritten and the rest preserved. -/
theorem spec_C9_witness :
    (getDatasets { limitVal := some 3, rest := [("k", "v")] }
        (Except.ok
          { nextPageToken := some "tok", datasets := ["d1", "d2"] })).nextQuery =
      some
        { limitVal := some 3, pageToken := some "tok", rest := [("k", "v")] } := by
  have h := (spec_C9 { limitVal := some 3, rest := [("k", "v")] }
    { nextPageToken := some "tok", datasets := ["d1", "d2"] }).2.1 "tok"
    rfl (by decide)
  exact h.trans (by decide)

/-- Updating a present heap entry updates exactly that entry. -/
theorem storeGet_storeSet (st : OptStore) (a : Nat) (o o2 : QROptions)
    (h : storeGet st a = some o) :
    storeGet (storeSet st a o2) a = some o2 := by
  induction st with
  | nil => simp [storeGet] at h
  | cons hd tl ih =>
    obtain ⟨b, p⟩ := hd
    by_cases hab : a = b
    · simp [storeGet, storeSet, hab]
    · simp only [storeGet, storeSet, if_neg hab] at h ⊢
      exact ih h

/-- C10: for every call `Job.getQueryResults(options, callback)` where
`options` is a caller-owned object (at heap address `a`), the method mutates
that object in place — after the call the caller's own object carries
`job = this` with all other fields preserved — and the very same object (the
same address, not a copy) is what is passed on to `bigQuery.query`. -/
theorem spec_C10 (st : OptStore) (a : Nat) (o : QROptions) (jid : Nat)
    (h : storeGet st a = some o) :
    (getQueryResults jid (QRArg.objAt a) st).2 = a ∧
    storeGet (getQueryResults jid (QRArg.objAt a) st).1 a =
      some { o with job := some jid } := by
  simp only [getQueryResults]
  rw [h]
  exact ⟨rfl, storeGet_storeSet st a o _ h⟩

/-- Witness for C10 at a concrete input: the caller's object at address 1
observably gains `job = 42`, and address 1 itself is handed to `query`. -/
theorem spec_C10_witness :
    (getQueryResults 42 (QRArg.objAt 1)
        [(1, ({ rest := [("k", "v")] } : QROptions))]).2 = 1 ∧
    storeGet (getQueryResults 42 (QRArg.objAt 1)
        [(1, ({ rest := [("k", "v")] } : QROptions))]).1 1 =
      some { job := some 42, rest := [("k", "v")] } := by
  obtain ⟨h1, h2⟩ := spec_C10 [(1, ({ rest := [("k", "v")] } : QROptions))] 1
    { rest := [("k", "v")] } 42 (by decide)
  exact ⟨h1, h2.trans (by decide)⟩
